import Mathlib

/-!
# MemoryHug: Float8 codec and allocation tracking, shallow embedding

Shallow embedding of `src/main.cpp` (class `MemoryManager` and its nested
`Float8`).  Native floating-point values are modelled as rationals: every
operation the codec performs on a `float` input (frexp, multiply by 8,
truncate, ldexp) and every intermediate sum or product of decoded values
is exact in IEEE single precision on the relevant domains, so the
rational model is faithful.

Format constants from the source: `EXP_BITS = 4`, `MANT_BITS = 3`,
`BIAS = 7`; hence `1 << EXP_BITS = 16`, `1 << MANT_BITS = 8`, and the
sign bit is `1 << 7 = 128`.
-/

namespace MemoryHug

/-- `std::frexp` exponent of a nonzero rational: the unique `e` with
`|x| = m * 2^e`, `m ∈ [1/2, 1)`.  Equals `Int.log 2 |x| + 1`. -/
def frexpExp (x : ℚ) : ℤ := Int.log 2 |x| + 1

/-- `std::frexp` mantissa of a nonzero rational: `|x| / 2 ^ frexpExp x`,
which lies in `[1/2, 1)` for `x ≠ 0`. -/
def frexpMant (x : ℚ) : ℚ := |x| / 2 ^ frexpExp x

namespace Float8

/-- `Float8::Float8(float f)` from `src/main.cpp` lines 17–39, as a map
from the input value to the stored byte `value : ℕ` (< 256).
`128 = sign << 7`, the biased exponent occupies bits 6–3 and the
truncated mantissa bits 2–0.  `static_cast<int>` truncates toward zero,
and `mantissa * (1 << MANT_BITS)` is nonnegative, so it is a floor. -/
def encode (x : ℚ) : ℕ :=
  if x = 0 then 0
  else
    let sign : ℕ := if x < 0 then 1 else 0
    let exponent : ℤ := frexpExp x + 7
    if exponent ≤ 0 then 0
    else if 16 ≤ exponent then 128 * sign + 15 * 8
    else 128 * sign + 8 * exponent.toNat + (⌊frexpMant x * 8⌋).toNat

/-- `Float8::operator float()` from `src/main.cpp` lines 41–51.
`value >> 7 & 1` is `v / 128 % 2`, `value >> MANT_BITS & 0xF` is
`v / 8 % 16`, `value & 0x7` is `v % 8`; `ldexp(m, e)` is `m * 2 ^ e`. -/
def decode (v : ℕ) : ℚ :=
  if v = 0 then 0
  else
    let sign : ℕ := v / 128 % 2
    let exponent : ℤ := (v / 8 % 16 : ℕ) - 7
    let mantissa : ℚ := 1 + (v % 8 : ℕ) / 8
    let result : ℚ := mantissa * 2 ^ exponent
    if sign = 1 then -result else result

/-- `Float8::operator+` (lines 53–55): decode both operands to native
floats, add, re-encode. -/
def add (a b : ℕ) : ℕ := encode (decode a + decode b)

/-- `Float8::operator*` (lines 57–59): decode both operands, multiply,
re-encode. -/
def mul (a b : ℕ) : ℕ := encode (decode a * decode b)

end Float8

/-- The mantissa-field formula as the spec's §4.1 states it, for
comparison with the code's truncation: `floor((m * 2 - 1) * 8)` where
`m` is the frexp mantissa of the input. -/
def mantissaFieldSpec (x : ℚ) : ℤ := ⌊(frexpMant x * 2 - 1) * 8⌋

/-! ## MemoryManager allocation tracking (`src/main.cpp` lines 78–131)

The two `size_t` counters `totalAllocated` / `totalFreed` are the state;
`allocCalls` / `freeCalls` are ghost event counters recording how many
times `MemoryManager::allocate` / `deallocate` were invoked (each C++
call site is one `new[]` / `delete[]` expression).  The mutex only
serializes counter updates and is invisible to the single-threaded
benchmark semantics. -/

structure MemState where
  totalAllocated : ℕ
  totalFreed : ℕ
  allocCalls : ℕ
  freeCalls : ℕ
  deriving DecidableEq, Repr

/-- `MemoryManager::allocate` (lines 83–87): add `size` to the allocated
total (and record one allocation event). -/
def allocate (size : ℕ) (s : MemState) : MemState :=
  { s with totalAllocated := s.totalAllocated + size,
           allocCalls := s.allocCalls + 1 }

/-- `MemoryManager::deallocate` (lines 89–93): add `size` to the freed
total (and record one free event). -/
def deallocate (size : ℕ) (s : MemState) : MemState :=
  { s with totalFreed := s.totalFreed + size,
           freeCalls := s.freeCalls + 1 }

/-- `MemoryManager::resetMemoryTracking` (lines 128–131) applied to a
fresh process: both totals (and the ghost counters) are zero. -/
def resetMemoryTracking : MemState := ⟨0, 0, 0, 0⟩

/-- `sizeof(Float8)`: the class stores a single `uint8_t`. -/
def sizeofFloat8 : ℕ := 1

/-- One pass of the inner loop body (lines 113–115): `data[j] =
static_cast<float>(j)` for `j = 0..999`, i.e. every slot `j` is
overwritten with the byte encoding of the float `j`.  Assignment of a
`Float8` value performs no allocation. -/
def writeAll (data : List ℕ) : List ℕ :=
  (List.range data.length).map fun j => Float8.encode (j : ℚ)

/-- The outer loop of lines 112–116, iterated `iters` times. -/
def innerLoop : ℕ → List ℕ → List ℕ
  | 0, data => data
  | n + 1, data => innerLoop n (writeAll data)

/-- `MemoryManager::optimizedMemoryUsage` (lines 109–122), with the
iteration count (1,000,000 in the source) as a parameter: allocate one
array of 1000 `Float8` (default-constructed to the zero byte), run the
write loop `iters` times, free the array once.  Returns the final
tracking state and the final array contents. -/
def optimizedMemoryUsage (iters : ℕ) (s : MemState) : MemState × List ℕ :=
  let s1 := allocate (1000 * sizeofFloat8) s
  let data := List.replicate 1000 (0 : ℕ)
  let data1 := innerLoop iters data
  let s2 := deallocate (1000 * sizeofFloat8) s1
  (s2, data1)

/-! ## frexp facts -/

theorem int_log2_eq {x : ℚ} {L : ℤ} (hx : 0 < x)
    (h1 : (2 : ℚ) ^ L ≤ x) (h2 : x < (2 : ℚ) ^ (L + 1)) :
    Int.log 2 x = L := by
  have hb : (1 : ℕ) < 2 := by norm_num
  have hcast : ((2 : ℕ) : ℚ) = (2 : ℚ) := by norm_num
  have hlo : L ≤ Int.log 2 x := by
    rw [← Int.zpow_le_iff_le_log hb hx, hcast]
    exact h1
  have hhi : Int.log 2 x < L + 1 := by
    rw [← Int.lt_zpow_iff_log_lt hb hx, hcast]
    exact h2
  omega

theorem frexp_decomp (x : ℚ) :
    |x| = frexpMant x * 2 ^ frexpExp x := by
  have h2 : (2 : ℚ) ^ frexpExp x ≠ 0 := zpow_ne_zero _ (by norm_num)
  rw [frexpMant, div_mul_cancel₀ _ h2]

theorem frexpMant_lb {x : ℚ} (hx : x ≠ 0) : 1 / 2 ≤ frexpMant x := by
  have hx' : 0 < |x| := abs_pos.mpr hx
  have hcast : ((2 : ℕ) : ℚ) = (2 : ℚ) := by norm_num
  have hlog := Int.zpow_log_le_self (b := 2) (by norm_num) hx'
  rw [hcast] at hlog
  have hpos : (0 : ℚ) < 2 ^ frexpExp x := zpow_pos (by norm_num) _
  rw [frexpMant, le_div_iff₀ hpos, frexpExp]
  calc (1 / 2 : ℚ) * 2 ^ (Int.log 2 |x| + 1)
      = 2 ^ Int.log 2 |x| := by
        rw [zpow_add₀ (two_ne_zero), zpow_one]; ring
    _ ≤ |x| := hlog

theorem frexpMant_ub {x : ℚ} (hx : x ≠ 0) : frexpMant x < 1 := by
  have hx' : 0 < |x| := abs_pos.mpr hx
  have hcast : ((2 : ℕ) : ℚ) = (2 : ℚ) := by norm_num
  have hlog := Int.lt_zpow_succ_log_self (b := 2) (by norm_num) |x|
  rw [hcast] at hlog
  have hpos : (0 : ℚ) < 2 ^ frexpExp x := zpow_pos (by norm_num) _
  rw [frexpMant, div_lt_one hpos, frexpExp]
  exact hlog

theorem frexpMant_pos {x : ℚ} (hx : x ≠ 0) : 0 < frexpMant x :=
  lt_of_lt_of_le (by norm_num) (frexpMant_lb hx)

/-- The truncated mantissa field `floor(m * 8)` lies in `{4,...,7}`. -/
theorem mantField_bounds {x : ℚ} (hx : x ≠ 0) :
    4 ≤ ⌊frexpMant x * 8⌋ ∧ ⌊frexpMant x * 8⌋ ≤ 7 := by
  constructor
  · rw [Int.le_floor]
    push_cast
    nlinarith [frexpMant_lb hx]
  · have : ⌊frexpMant x * 8⌋ < 8 := by
      rw [Int.floor_lt]
      push_cast
      nlinarith [frexpMant_ub hx]
    omega

/-- A concrete-evaluation helper: pin down `frexpExp` from a power-of-two
bracketing of `|x|`. -/
theorem frexpExp_eq {x : ℚ} {e : ℤ} (h1 : (2 : ℚ) ^ (e - 1) ≤ |x|)
    (h2 : |x| < (2 : ℚ) ^ e) : frexpExp x = e := by
  have hx : 0 < |x| := lt_of_lt_of_le (zpow_pos (by norm_num) _) h1
  have : Int.log 2 |x| = e - 1 := int_log2_eq hx h1 (by rwa [sub_add_cancel])
  rw [frexpExp, this]
  omega

theorem le_frexpExp_of_le_abs {x : ℚ} {e : ℤ} (h : (2 : ℚ) ^ (e - 1) ≤ |x|) :
    e ≤ frexpExp x := by
  have hx : 0 < |x| := lt_of_lt_of_le (zpow_pos (by norm_num) _) h
  have hcast : ((2 : ℕ) : ℚ) = (2 : ℚ) := by norm_num
  have := (Int.zpow_le_iff_le_log (b := 2) (by norm_num) hx (x := e - 1)).mp
    (by rwa [hcast])
  rw [frexpExp]
  omega

theorem frexpExp_le_of_abs_lt {x : ℚ} {e : ℤ} (hx : x ≠ 0)
    (h : |x| < (2 : ℚ) ^ e) : frexpExp x ≤ e := by
  have hx' : 0 < |x| := abs_pos.mpr hx
  have hcast : ((2 : ℕ) : ℚ) = (2 : ℚ) := by norm_num
  have := (Int.lt_zpow_iff_log_lt (b := 2) (by norm_num) hx' (x := e)).mp
    (by rwa [hcast])
  rw [frexpExp]
  omega

namespace Float8

/-- `encode 0` takes the `f == 0` early return. -/
theorem encode_zero : encode 0 = 0 := by
  unfold encode
  rw [if_pos rfl]

/-- `decode 0` takes the `value == 0` early return. -/
theorem decode_zero : decode 0 = 0 := by
  unfold decode
  rw [if_pos rfl]

/-- The underflow branch: biased exponent `≤ 0` yields the zero byte. -/
theorem encode_underflow {x : ℚ} (h : frexpExp x + 7 ≤ 0) : encode x = 0 := by
  unfold encode
  by_cases hx : x = 0
  · rw [if_pos hx]
  · rw [if_neg hx, if_pos h]

/-- The overflow branch: biased exponent `≥ 16` yields sign bit plus
exponent field 15, mantissa field 0. -/
theorem encode_overflow {x : ℚ} (hx : x ≠ 0) (h : 16 ≤ frexpExp x + 7) :
    encode x = 128 * (if x < 0 then 1 else 0) + 120 := by
  unfold encode
  rw [if_neg hx, if_neg (by omega), if_pos h]

/-- The normal branch of the constructor. -/
theorem encode_normal {x : ℚ} (hx : x ≠ 0) (h1 : 1 ≤ frexpExp x + 7)
    (h2 : frexpExp x + 7 ≤ 15) :
    encode x = 128 * (if x < 0 then 1 else 0) +
      8 * (frexpExp x + 7).toNat + (⌊frexpMant x * 8⌋).toNat := by
  unfold encode
  rw [if_neg hx, if_neg (by omega), if_neg (by omega)]

/-- Decoding a packed byte with clear sign bit, biased exponent `be` and
mantissa field `mt`. -/
theorem decode_packed0 {be mt : ℕ} (hbe1 : 1 ≤ be) (hbe : be ≤ 15)
    (hmt : mt ≤ 7) :
    decode (128 * 0 + 8 * be + mt) = (1 + (mt : ℚ) / 8) * 2 ^ ((be : ℤ) - 7) := by
  have hv : 128 * 0 + 8 * be + mt ≠ 0 := by omega
  have h1 : (128 * 0 + 8 * be + mt) / 128 % 2 = 0 := by omega
  have h2 : (128 * 0 + 8 * be + mt) / 8 % 16 = be := by omega
  have h3 : (128 * 0 + 8 * be + mt) % 8 = mt := by omega
  unfold decode
  rw [if_neg hv, h1, h2, h3, if_neg (by norm_num)]

/-- Decoding a packed byte with set sign bit, biased exponent `be` and
mantissa field `mt`. -/
theorem decode_packed1 {be mt : ℕ} (hbe1 : 1 ≤ be) (hbe : be ≤ 15)
    (hmt : mt ≤ 7) :
    decode (128 * 1 + 8 * be + mt) =
      -((1 + (mt : ℚ) / 8) * 2 ^ ((be : ℤ) - 7)) := by
  have hv : 128 * 1 + 8 * be + mt ≠ 0 := by omega
  have h1 : (128 * 1 + 8 * be + mt) / 128 % 2 = 1 := by omega
  have h2 : (128 * 1 + 8 * be + mt) / 8 % 16 = be := by omega
  have h3 : (128 * 1 + 8 * be + mt) % 8 = mt := by omega
  unfold decode
  rw [if_neg hv, h1, h2, h3, if_pos rfl]

/-- The saturated positive byte (sign 0, exponent field 15, mantissa
field 0) decodes to `2^8 = 256`. -/
theorem decode_saturated_pos : decode 120 = 256 := by
  unfold decode
  norm_num

/-- The saturated negative byte decodes to `-256`. -/
theorem decode_saturated_neg : decode 248 = -256 := by
  unfold decode
  norm_num

/-- Round-trip through the normal path: the decoded value is
`± (1 + floor(8 m)/8) · 2 ^ e` where `(m, e)` is the frexp decomposition
of the input — note the implicit leading bit is added on top of a
mantissa field that still contains it. -/
theorem decode_encode_normal {x : ℚ} (hx : x ≠ 0) (h1 : 1 ≤ frexpExp x + 7)
    (h2 : frexpExp x + 7 ≤ 15) :
    decode (encode x) =
      (if x < 0 then (-1 : ℚ) else 1) *
        ((1 + (⌊frexpMant x * 8⌋ : ℚ) / 8) * 2 ^ frexpExp x) := by
  obtain ⟨hm4, hm7⟩ := mantField_bounds hx
  have hbe1 : 1 ≤ (frexpExp x + 7).toNat := by omega
  have hbe15 : (frexpExp x + 7).toNat ≤ 15 := by omega
  have hmt7 : (⌊frexpMant x * 8⌋).toNat ≤ 7 := by omega
  have hbecast : (((frexpExp x + 7).toNat : ℤ) - 7) = frexpExp x := by omega
  have hmtcast : (((⌊frexpMant x * 8⌋).toNat : ℕ) : ℚ) = (⌊frexpMant x * 8⌋ : ℚ) := by
    have : ((⌊frexpMant x * 8⌋).toNat : ℤ) = ⌊frexpMant x * 8⌋ := by omega
    exact_mod_cast congrArg (fun z : ℤ => (z : ℚ)) this
  rw [encode_normal hx h1 h2]
  by_cases hneg : x < 0
  · simp only [if_pos hneg]
    rw [decode_packed1 hbe1 hbe15 hmt7, hbecast, hmtcast]
    ring
  · simp only [if_neg hneg]
    rw [decode_packed0 hbe1 hbe15 hmt7, hbecast, hmtcast]
    ring

/-- `encode x = 0` whenever `|x| < 2^-7`, the code's actual flush-to-zero
threshold. -/
theorem encode_eq_zero_of_small {x : ℚ} (h : |x| < 1 / 128) : encode x = 0 := by
  by_cases hx : x = 0
  · rw [hx, encode_zero]
  · have hle : frexpExp x ≤ -7 := by
      refine frexpExp_le_of_abs_lt hx (e := -7) ?_
      rw [show ((2 : ℚ) ^ (-7 : ℤ)) = 1 / 128 by norm_num]
      exact h
    exact encode_underflow (by omega)

/-- Concrete evaluation: `frexp 1 = (1/2, 1)`, so `encode 1` packs biased
exponent `8` and mantissa field `floor(1/2 * 8) = 4`, giving byte 68. -/
theorem encode_one : encode 1 = 68 := by
  have he : frexpExp (1 : ℚ) = 1 := frexpExp_eq (by norm_num) (by norm_num)
  have hm : frexpMant (1 : ℚ) = 1 / 2 := by
    rw [frexpMant, he]
    norm_num
  rw [encode_normal one_ne_zero (by rw [he]; norm_num) (by rw [he]; norm_num),
    he, hm]
  norm_num
  decide

/-- Byte 68 decodes to `(1 + 4/8) * 2^(8-7) = 3`. -/
theorem decode_sixtyeight : decode 68 = 3 := by
  unfold decode
  norm_num

/-- The code's round trip at input `1`: `decode (encode 1) = 3`. -/
theorem decode_encode_one : decode (encode 1) = 3 := by
  rw [encode_one, decode_sixtyeight]

end Float8

/-! ## Claim theorems -/

/-- C1 (code_bug evidence): the claim asserts `decode (encode x)` stays
within a relative error of about 1/8 for normal-range magnitudes, but at
the in-range input `1` the code decodes to `3`, a relative error of `2`.
The encoder stores `floor(m * 8)` with `m ∈ [1/2, 1)` and never removes
the implicit leading bit that the decoder adds back. -/
theorem C1_roundtrip_error_at_one :
    Float8.decode (Float8.encode 1) = 3 ∧
    (1 / 8 : ℚ) < |Float8.decode (Float8.encode 1) - 1| := by
  refine ⟨Float8.decode_encode_one, ?_⟩
  rw [Float8.decode_encode_one]
  norm_num

/-- C2 (code_bug evidence): at input `3/2` (frexp mantissa `3/4`) the
code stores mantissa field `floor(3/4 * 8) = 6`, while the spec's
formula `floor((m * 2 - 1) * 8)` gives `4`. -/
theorem C2_mantissa_field_at_three_halves :
    Float8.encode (3 / 2) % 8 = 6 ∧ mantissaFieldSpec (3 / 2) = 4 := by
  have he : frexpExp ((3 : ℚ) / 2) = 1 :=
    frexpExp_eq (by norm_num [abs_of_pos]) (by norm_num [abs_of_pos])
  have hm : frexpMant ((3 : ℚ) / 2) = 3 / 4 := by
    rw [frexpMant, he]
    norm_num [abs_of_pos]
  constructor
  · rw [Float8.encode_normal (by norm_num) (by rw [he]; norm_num)
      (by rw [he]; norm_num), he, hm]
    norm_num
    decide
  · rw [mantissaFieldSpec, hm]
    norm_num

/-- C3 (counterexample): the claim says saturated inputs decode to the
maximum representable magnitude `1.875 * 2^8 = 480`; in fact the
saturated byte has mantissa field 0 and decodes to `2^8 = 256`. -/
theorem C3_counterexample :
    Float8.decode (Float8.encode 1000) = 256 ∧ (256 : ℚ) ≠ 480 := by
  have he : frexpExp (1000 : ℚ) = 10 := frexpExp_eq (by norm_num) (by norm_num)
  constructor
  · rw [Float8.encode_overflow (by norm_num) (by rw [he]; norm_num),
      if_neg (by norm_num)]
    norm_num [Float8.decode_saturated_pos]
  · norm_num

/-- C3 (amended): every input of magnitude `≥ 2^8 = 256` saturates, and
the saturated byte decodes to `2^8 = 256` with the sign of the input —
neither zero nor unbounded. -/
theorem C3_saturation (x : ℚ) (h : 256 ≤ |x|) :
    (0 < x → Float8.decode (Float8.encode x) = 256) ∧
    (x < 0 → Float8.decode (Float8.encode x) = -256) := by
  have hx : x ≠ 0 := by
    intro h0
    rw [h0] at h
    norm_num at h
  have h9 : 9 ≤ frexpExp x := by
    refine le_frexpExp_of_le_abs (e := 9) ?_
    rw [show ((9 : ℤ) - 1) = 8 by norm_num,
      show ((2 : ℚ) ^ (8 : ℤ)) = 256 by norm_num]
    exact h
  rw [Float8.encode_overflow hx (by omega)]
  constructor
  · intro hpos
    rw [if_neg (not_lt.mpr hpos.le)]
    norm_num [Float8.decode_saturated_pos]
  · intro hneg
    rw [if_pos hneg]
    norm_num [Float8.decode_saturated_neg]

/-- C3 witness: the amended saturation theorem applied at `x = 300`. -/
theorem C3_saturation_witness :
    (256 : ℚ) ≤ |(300 : ℚ)| ∧ Float8.decode (Float8.encode 300) = 256 :=
  ⟨by norm_num, (C3_saturation 300 (by norm_num)).1 (by norm_num)⟩

/-- C4 (counterexample): `3/256` is nonzero with magnitude below the
format's minimum representable normal value `2^-6 = 1/64`, yet it does
not encode to the zero byte (its biased exponent is `1 > 0`). -/
theorem C4_counterexample :
    ((3 : ℚ) / 256 ≠ 0 ∧ |(3 : ℚ) / 256| < 1 / 64) ∧
      Float8.encode (3 / 256) ≠ 0 := by
  have he : frexpExp ((3 : ℚ) / 256) = -6 :=
    frexpExp_eq (by norm_num [abs_of_pos]) (by norm_num [abs_of_pos])
  have hm : frexpMant ((3 : ℚ) / 256) = 3 / 4 := by
    rw [frexpMant, he]
    norm_num [abs_of_pos]
  refine ⟨⟨by norm_num, by norm_num [abs_of_pos]⟩, ?_⟩
  rw [Float8.encode_normal (by norm_num) (by rw [he]; norm_num)
    (by rw [he]; norm_num), he, hm]
  norm_num

/-- C4 (amended): the code's flush-to-zero threshold is `2^-7 = 1/128`
(biased exponent `≤ 0`), not `2^-6`: every nonzero input of magnitude
below `2^-7` encodes to the zero byte. -/
theorem C4_underflow (x : ℚ) (_hx : x ≠ 0) (h : |x| < 1 / 128) :
    Float8.encode x = 0 :=
  Float8.encode_eq_zero_of_small h

/-- C4 witness: the amended underflow theorem applied at `x = 1/512`. -/
theorem C4_underflow_witness :
    ((1 : ℚ) / 512 ≠ 0 ∧ |(1 : ℚ) / 512| < 1 / 128) ∧
      Float8.encode (1 / 512) = 0 :=
  ⟨⟨by norm_num, by norm_num [abs_of_pos]⟩,
    C4_underflow (1 / 512) (by norm_num) (by norm_num [abs_of_pos])⟩

/-- C5 (counterexample): sign preservation fails below the underflow
threshold: `1/512 > 0`, but it encodes to the zero byte, which decodes
to `0`, not a positive value. -/
theorem C5_counterexample :
    0 < (1 : ℚ) / 512 ∧ Float8.decode (Float8.encode (1 / 512)) = 0 := by
  refine ⟨by norm_num, ?_⟩
  rw [Float8.encode_eq_zero_of_small (by norm_num [abs_of_pos]), Float8.decode_zero]

/-- C5 (amended): sign preservation holds on inputs that do not
underflow, i.e. of magnitude at least the flush threshold `2^-7`:
positive inputs decode back positive, negative inputs negative. -/
theorem C5_sign_preservation (x : ℚ) (h : 1 / 128 ≤ |x|) :
    (0 < x → 0 < Float8.decode (Float8.encode x)) ∧
    (x < 0 → Float8.decode (Float8.encode x) < 0) := by
  have hx : x ≠ 0 := by
    intro h0
    rw [h0] at h
    norm_num at h
  have hge : -6 ≤ frexpExp x := by
    refine le_frexpExp_of_le_abs (e := -6) ?_
    rw [show ((-6 : ℤ) - 1) = -7 by norm_num,
      show ((2 : ℚ) ^ (-7 : ℤ)) = 1 / 128 by norm_num]
    exact h
  rcases le_or_lt 16 (frexpExp x + 7) with h16 | h16
  · rw [Float8.encode_overflow hx h16]
    constructor
    · intro hpos
      rw [if_neg (not_lt.mpr hpos.le)]
      norm_num [Float8.decode_saturated_pos]
    · intro hneg
      rw [if_pos hneg]
      norm_num [Float8.decode_saturated_neg]
  · rw [Float8.decode_encode_normal hx (by omega) (by omega)]
    obtain ⟨hm4, _⟩ := mantField_bounds hx
    have hm0 : (0 : ℚ) ≤ (⌊frexpMant x * 8⌋ : ℚ) := by
      exact_mod_cast (by omega : (0 : ℤ) ≤ ⌊frexpMant x * 8⌋)
    have hfac : 0 < (1 + (⌊frexpMant x * 8⌋ : ℚ) / 8) * 2 ^ frexpExp x := by
      have hp : (0 : ℚ) < 2 ^ frexpExp x := zpow_pos (by norm_num) _
      have : (0 : ℚ) < 1 + (⌊frexpMant x * 8⌋ : ℚ) / 8 := by linarith
      exact mul_pos this hp
    constructor
    · intro hpos
      rw [if_neg (not_lt.mpr hpos.le), one_mul]
      exact hfac
    · intro hneg
      rw [if_pos hneg]
      nlinarith

/-- C5 witness: the amended sign-preservation theorem applied at
`x = -1`. -/
theorem C5_sign_preservation_witness :
    (1 / 128 : ℚ) ≤ |(-1 : ℚ)| ∧ Float8.decode (Float8.encode (-1)) < 0 :=
  ⟨by norm_num, (C5_sign_preservation (-1) (by norm_num)).2 (by norm_num)⟩

/-- C6: the code's `operator+` and `operator*` are exactly
`encode (decode a + decode b)` and `encode (decode a * decode b)` — the
operands are decoded, combined in native (here: exact rational)
precision, and re-encoded. -/
theorem C6_arithmetic_refines_spec (a b : ℕ) :
    Float8.add a b = Float8.encode (Float8.decode a + Float8.decode b) ∧
    Float8.mul a b = Float8.encode (Float8.decode a * Float8.decode b) :=
  ⟨rfl, rfl⟩

/-- C7: `encode 0` is the zero byte and the zero byte decodes to
exactly `0`. -/
theorem C7_zero_fixed_point :
    Float8.encode 0 = 0 ∧ Float8.decode 0 = 0 :=
  ⟨Float8.encode_zero, Float8.decode_zero⟩

/-- C8: every encoded byte decodes to a bounded (finite) value: the
magnitude of `decode (encode x)` never exceeds the format maximum
`1.875 * 2^8 = 480`; there is no NaN/infinity behaviour. -/
theorem C8_roundtrip_finite (x : ℚ) :
    |Float8.decode (Float8.encode x)| ≤ 480 := by
  by_cases hx : x = 0
  · rw [hx, Float8.encode_zero, Float8.decode_zero]
    norm_num
  rcases le_or_lt (frexpExp x + 7) 0 with hu | hu
  · rw [Float8.encode_underflow hu, Float8.decode_zero]
    norm_num
  rcases le_or_lt 16 (frexpExp x + 7) with h16 | h16
  · rw [Float8.encode_overflow hx h16]
    by_cases hneg : x < 0
    · rw [if_pos hneg]
      norm_num [Float8.decode_saturated_neg]
    · rw [if_neg hneg]
      norm_num [Float8.decode_saturated_pos]
  · rw [Float8.decode_encode_normal hx (by omega) (by omega)]
    obtain ⟨hm4, hm7⟩ := mantField_bounds hx
    have hm0 : (0 : ℚ) ≤ (⌊frexpMant x * 8⌋ : ℚ) := by
      exact_mod_cast (by omega : (0 : ℤ) ≤ ⌊frexpMant x * 8⌋)
    have hmq : (⌊frexpMant x * 8⌋ : ℚ) ≤ 7 := by exact_mod_cast hm7
    have hp : (0 : ℚ) < 2 ^ frexpExp x := zpow_pos (by norm_num) _
    have hpow : (2 : ℚ) ^ frexpExp x ≤ 256 := by
      have h8 : frexpExp x ≤ 8 := by omega
      calc (2 : ℚ) ^ frexpExp x ≤ 2 ^ (8 : ℤ) :=
            zpow_le_zpow_right₀ (by norm_num) h8
        _ = 256 := by norm_num
    have hbody : |(1 + (⌊frexpMant x * 8⌋ : ℚ) / 8) * 2 ^ frexpExp x| =
        (1 + (⌊frexpMant x * 8⌋ : ℚ) / 8) * 2 ^ frexpExp x := by
      refine abs_of_nonneg ?_
      have : (0 : ℚ) ≤ 1 + (⌊frexpMant x * 8⌋ : ℚ) / 8 := by linarith
      positivity
    have hbound : (1 + (⌊frexpMant x * 8⌋ : ℚ) / 8) * 2 ^ frexpExp x ≤ 480 := by
      nlinarith
    by_cases hneg : x < 0
    · rw [if_pos hneg, neg_one_mul, abs_neg, hbody]
      exact hbound
    · rw [if_neg hneg, one_mul, hbody]
      exact hbound

/-- C9: the optimized workload, started from reset counters, adds
exactly `1000 * sizeof(Float8)` to the allocated total via a single
allocation call and the same amount to the freed total via a single
free call, for every iteration count of the inner write loop. -/
theorem C9_optimized_allocates_once (iters : ℕ) :
    (optimizedMemoryUsage iters resetMemoryTracking).1.totalAllocated
        = 1000 * sizeofFloat8 ∧
    (optimizedMemoryUsage iters resetMemoryTracking).1.totalFreed
        = 1000 * sizeofFloat8 ∧
    (optimizedMemoryUsage iters resetMemoryTracking).1.allocCalls = 1 ∧
    (optimizedMemoryUsage iters resetMemoryTracking).1.freeCalls = 1 :=
  ⟨rfl, rfl, rfl, rfl⟩

/-- C10: on the normal encoding path (biased exponent strictly between
0 and 16) the mantissa field of the produced byte is always in
`{4, 5, 6, 7}`, so the decoded significand `1 + field/8` is at least
`3/2`. -/
theorem C10_mantissa_field_high (x : ℚ) (hx : x ≠ 0)
    (h1 : 0 < frexpExp x + 7) (h2 : frexpExp x + 7 < 16) :
    (4 ≤ Float8.encode x % 8 ∧ Float8.encode x % 8 ≤ 7) ∧
    (3 / 2 : ℚ) ≤ 1 + (Float8.encode x % 8 : ℕ) / 8 := by
  obtain ⟨hm4, hm7⟩ := mantField_bounds hx
  have hmt4 : 4 ≤ (⌊frexpMant x * 8⌋).toNat := by omega
  have hmt7 : (⌊frexpMant x * 8⌋).toNat ≤ 7 := by omega
  have hmod : Float8.encode x % 8 = (⌊frexpMant x * 8⌋).toNat := by
    rw [Float8.encode_normal hx (by omega) (by omega)]
    by_cases hneg : x < 0
    · rw [if_pos hneg]
      omega
    · rw [if_neg hneg]
      omega
  rw [hmod]
  refine ⟨⟨hmt4, hmt7⟩, ?_⟩
  have h4q : (4 : ℚ) ≤ ((⌊frexpMant x * 8⌋).toNat : ℚ) := by exact_mod_cast hmt4
  linarith

/-- C10 witness: the mantissa-field theorem applied at `x = 1`
(biased exponent `8`, mantissa field `4`). -/
theorem C10_mantissa_field_high_witness :
    ((1 : ℚ) ≠ 0 ∧ 0 < frexpExp 1 + 7 ∧ frexpExp 1 + 7 < 16) ∧
    4 ≤ Float8.encode 1 % 8 := by
  have he : frexpExp (1 : ℚ) = 1 := frexpExp_eq (by norm_num) (by norm_num)
  have h1 : (0 : ℤ) < frexpExp 1 + 7 := by rw [he]; norm_num
  have h2 : frexpExp 1 + 7 < 16 := by rw [he]; norm_num
  exact ⟨⟨one_ne_zero, h1, h2⟩,
    (C10_mantissa_field_high 1 one_ne_zero h1 h2).1.1⟩

end MemoryHug
